import Mathlib

/-!
Verification of the yaraft replicated-log manager (`RaftLog`, src/raft_log.h).

The `RaftLog` operations are translated directly from `src/raft_log.h`.
The `Unstable` buffer and the `Storage` collaborator are declared in headers
that are not part of the sources at hand, so they are modelled from the
specification (sections 4.2 and 6): each such definition carries a doc
comment saying so.

Conventions: machine integers (`uint64_t`) are modelled as `Nat`; the
hypotheses of each theorem rule out the unsigned-underflow corners, so
truncated `Nat` subtraction agrees with the C++ arithmetic.  A fatal
condition (`FMT_LOG(FATAL, ...)` / `throw RaftError`) is modelled as the
`none` result of an `Option`-valued operation; recoverable errors use
`Except Err`.
-/

namespace Yaraft

/-- One log entry: `index` (position), `term` (leadership epoch) and the
byte size of its opaque payload. -/
structure Entry where
  index : Nat
  term : Nat
  size : Nat
deriving Repr, DecidableEq

/-- Snapshot metadata: index and term of the last entry it subsumes. -/
structure Snapshot where
  index : Nat
  term : Nat
deriving Repr, DecidableEq

/-- The recoverable error codes of the log manager. -/
inductive Err where
  | OutOfBound
  | LogCompacted
deriving Repr, DecidableEq

/-- Cumulative payload size of a list of entries. -/
def sizeSum : List Entry → Nat
  | [] => 0
  | e :: rest => e.size + sizeSum rest

/-- Take a prefix of a list of entries whose cumulative payload size fits in
the budget `b`; also return the remaining budget. -/
def takeBudget : List Entry → Nat → List Entry × Nat
  | [], b => ([], b)
  | e :: rest, b =>
    if e.size ≤ b then
      let p := takeBudget rest (b - e.size)
      (e :: p.1, p.2)
    else ([], b)

/-- `contiguousFrom s l` holds when the entries of `l` carry the strictly
increasing contiguous indices `s, s+1, s+2, ...`. -/
def contiguousFrom : Nat → List Entry → Bool
  | _, [] => true
  | s, e :: rest => e.index == s && contiguousFrom (s + 1) rest

/-- The last element of a list of entries, mirroring `entries.rbegin()`. -/
def lastEntry? : List Entry → Option Entry
  | [] => none
  | [e] => some e
  | _ :: e :: rest => lastEntry? (e :: rest)

/-- Modelled from the spec: the external durable `Storage` collaborator
(spec section 6), whose header is not among the sources.  It retains the
contiguous run of entries with indices `compacted+1 .. compacted+ents.length`;
`compacted` is the dummy index (one below the first retained index) and
`dummyTerm` its term. -/
structure Storage where
  compacted : Nat
  dummyTerm : Nat
  ents : List Entry
deriving Repr, DecidableEq

/-- Modelled from the spec: `FirstIndex` is the lowest retained index
(one past the last compacted entry). -/
def Storage.FirstIndex (s : Storage) : Nat := s.compacted + 1

/-- Modelled from the spec: `LastIndex` is the highest durably stored index. -/
def Storage.LastIndex (s : Storage) : Nat := s.compacted + s.ents.length

/-- Modelled from the spec: `Term(index)` fails with `LogCompacted` below the
dummy index, answers the dummy index with the dummy term, and fails with
`OutOfBound` above the last stored index. -/
def Storage.Term (s : Storage) (index : Nat) : Except Err Nat :=
  if index < s.compacted then Except.error Err.LogCompacted
  else if index = s.compacted then Except.ok s.dummyTerm
  else
    match s.ents[index - s.compacted - 1]? with
    | some e => Except.ok e.term
    | none => Except.error Err.OutOfBound

/-- Modelled from the spec: `Storage::Entries(lo, hi, &maxSize)` is
size-bounded and may return fewer entries than requested; it fails with
`LogCompacted` when `lo` does not exceed the dummy index.  The C++ call
passes `maxSize` by pointer, so the model also returns the remaining
budget. -/
def Storage.Entries (s : Storage) (lo hi maxSize : Nat) : Except Err (List Entry × Nat) :=
  if lo ≤ s.compacted then Except.error Err.LogCompacted
  else Except.ok (takeBudget ((s.ents.drop (lo - s.compacted - 1)).take (hi - lo)) maxSize)

/-- Modelled from the spec: the unstable buffer (spec section 4.2), whose
header is not among the sources: `offset` is the index of the first buffered
entry (or the index following a pending snapshot when the buffer is empty),
`entries` the buffered run, `snapshot` the pending snapshot if any. -/
structure Unstable where
  offset : Nat
  entries : List Entry
  snapshot : Option Snapshot
deriving Repr, DecidableEq

/-- Modelled from the spec: `MaybeTerm(index)` returns the term if `index`
falls within `[offset, offset + len)`, else the unknown sentinel, which the
enclosing `RaftLog::Term` (src/raft_log.h:69) represents as the term value 0. -/
def Unstable.MaybeTerm (u : Unstable) (index : Nat) : Nat :=
  if u.offset ≤ index ∧ index < u.offset + u.entries.length then
    ((u.entries[index - u.offset]?).map Entry.term).getD 0
  else 0

/-- Modelled from the spec: `TruncateAndAppend` distinguishes the incoming
run's starting index `s` against `[offset, offset+n)`: pure append when
`s = offset + n`; full replacement (with `offset := s`) when `s ≤ offset`;
otherwise truncate the buffer to `[offset, s)` and append. -/
def Unstable.TruncateAndAppend (u : Unstable) (incoming : List Entry) : Unstable :=
  match incoming.head? with
  | none => u
  | some e =>
    if e.index = u.offset + u.entries.length then
      { u with entries := u.entries ++ incoming }
    else if e.index ≤ u.offset then
      { u with offset := e.index, entries := incoming }
    else
      { u with entries := u.entries.take (e.index - u.offset) ++ incoming }

/-- Modelled from the spec: `CopyTo(dest, lo, hi, maxSize)` appends to `dest`
the overlap of the buffered entries with `[lo, hi)`, stopping once the
cumulative size budget is exhausted. -/
def Unstable.CopyTo (u : Unstable) (dest : List Entry) (lo hi maxSize : Nat) : List Entry :=
  dest ++ (takeBudget ((u.entries.drop (lo - u.offset)).take (hi - lo)) maxSize).1

/-- Modelled from the spec: `Restore(snapshot)` clears the buffered entries,
sets `offset = snapshot.index + 1` and stores the snapshot as pending. -/
def Unstable.Restore (_u : Unstable) (snap : Snapshot) : Unstable :=
  { offset := snap.index + 1, entries := [], snapshot := some snap }

/-- The log manager state (src/raft_log.h:358-375): the storage collaborator,
the unstable buffer, and the volatile `commitIndex_` / `lastApplied_`. -/
structure RaftLog where
  storage : Storage
  unstable : Unstable
  commitIndex : Nat
  lastApplied : Nat
deriving Repr, DecidableEq

namespace RaftLog

/-- The constructor (src/raft_log.h:33-46): seeds `commitIndex_` and
`lastApplied_` from `Storage::FirstIndex() - 1` and the unstable offset from
`Storage::LastIndex() + 1`. -/
def init (storage : Storage) : RaftLog :=
  { storage := storage
    unstable := { offset := storage.LastIndex + 1, entries := [], snapshot := none }
    commitIndex := storage.FirstIndex - 1
    lastApplied := storage.FirstIndex - 1 }

/-- `LastIndex` (src/raft_log.h:89-99): last unstable entry, else the pending
snapshot index, else storage. -/
def LastIndex (r : RaftLog) : Nat :=
  match lastEntry? r.unstable.entries with
  | some e => e.index
  | none =>
    match r.unstable.snapshot with
    | some snap => snap.index
    | none => r.storage.LastIndex

/-- `FirstIndex` (src/raft_log.h:101-109): pending snapshot index + 1 when
present, else storage. -/
def FirstIndex (r : RaftLog) : Nat :=
  match r.unstable.snapshot with
  | some snap => snap.index + 1
  | none => r.storage.FirstIndex

/-- `Term` (src/raft_log.h:62-87): `OutOfBound` outside
`[FirstIndex()-1, LastIndex()]`, else the unstable buffer's answer when known,
else storage's answer (whose `OutOfBound` / `LogCompacted` are returned). -/
def Term (r : RaftLog) (index : Nat) : Except Err Nat :=
  if index > r.LastIndex ∨ index < r.FirstIndex - 1 then Except.error Err.OutOfBound
  else
    let t := r.unstable.MaybeTerm index
    if t ≠ 0 then Except.ok t
    else r.storage.Term index

/-- `CommitIndex` accessor (src/raft_log.h:58-60). -/
def CommitIndex (r : RaftLog) : Nat := r.commitIndex

/-- `LastApplied` accessor (src/raft_log.h:297-299). -/
def LastApplied (r : RaftLog) : Nat := r.lastApplied

/-- `HasEntry` (src/raft_log.h:117-123): the lookup succeeds and matches. -/
def HasEntry (r : RaftLog) (index term : Nat) : Bool :=
  match r.Term index with
  | Except.ok t => t == term
  | Except.error _ => false

/-- `Append` over an iterator range (src/raft_log.h:137-152): no-op on an
empty range; fatal (`none`) when the first entry's index is at or below
`commitIndex_`; otherwise delegates to the unstable buffer. -/
def Append (r : RaftLog) (ents : List Entry) : Option RaftLog :=
  match ents.head? with
  | none => some r
  | some e =>
    if e.index ≤ r.commitIndex then none
    else some { r with unstable := r.unstable.TruncateAndAppend ents }

/-- `CommitTo` (src/raft_log.h:154-171): no-op unless `to > commitIndex_`;
fatal (`none`) when `LastIndex() < to`; else sets `commitIndex_ = to`. -/
def CommitTo (r : RaftLog) (target : Nat) : Option RaftLog :=
  if target > r.commitIndex then
    if r.LastIndex < target then none
    else some { r with commitIndex := target }
  else some r

/-- `FindConflict` (src/raft_log.h:184-197) as the position (in the incoming
list) of the first entry failing `HasEntry`; the list length plays the role
of the `end` sentinel. -/
def FindConflict (r : RaftLog) : List Entry → Nat
  | [] => 0
  | e :: rest =>
    if r.HasEntry e.index e.term then r.FindConflict rest + 1 else 0

/-- `MaybeAppend` (src/raft_log.h:201-229): on a successful log-matching
handshake returns `(true, prevLogIndex + len(entries))` and appends the
conflicting suffix (which can be fatal, `none`); on failure returns
`(false, 0)` with the state untouched. -/
def MaybeAppend (r : RaftLog) (prevLogIndex prevLogTerm : Nat) (ents : List Entry) :
    Option (Bool × Nat × RaftLog) :=
  if r.HasEntry prevLogIndex prevLogTerm then
    let newLastIndex := prevLogIndex + ents.length
    if 0 < ents.length then
      let conflicted := r.FindConflict ents
      if conflicted ≠ ents.length then
        match r.Append (ents.drop conflicted) with
        | none => none
        | some r2 => some (true, newLastIndex, r2)
      else some (true, newLastIndex, r)
    else some (true, newLastIndex, r)
  else some (false, 0, r)

/-- `MustCheckOutOfBounds` (src/raft_log.h:241-258): fatal (`none`) when
`lo > hi` or the slice exceeds `[FirstIndex(), LastIndex()+1)`; `LogCompacted`
when `lo < FirstIndex()`. -/
def MustCheckOutOfBounds (r : RaftLog) (lo hi : Nat) : Option (Except Err Unit) :=
  if lo > hi then none
  else
    let fi := r.FirstIndex
    if lo < fi then some (Except.error Err.LogCompacted)
    else
      let li := r.LastIndex
      let length := li + 1 - fi
      if lo < fi ∨ hi > fi + length then none
      else some (Except.ok ())

/-- `Entries(lo, hi, maxSize)` (src/raft_log.h:262-295): bounds check, then a
storage-resident prefix (early return when it is short) followed by the
unstable-resident suffix, threading the remaining size budget. -/
def Entries (r : RaftLog) (lo hi maxSize : Nat) : Option (Except Err (List Entry)) :=
  match r.MustCheckOutOfBounds lo hi with
  | none => none
  | some (Except.error e) => some (Except.error e)
  | some (Except.ok _) =>
    if lo = hi then some (Except.ok [])
    else
      let uOffset := r.unstable.offset
      if lo < uOffset then
        match r.storage.Entries lo (min hi uOffset) maxSize with
        | Except.error Err.LogCompacted => some (Except.error Err.LogCompacted)
        | Except.error _ => none
        | Except.ok (ret, remaining) =>
          if ret.length < min hi uOffset - lo then some (Except.ok ret)
          else if uOffset < hi then
            some (Except.ok (r.unstable.CopyTo ret (max lo uOffset) hi remaining))
          else some (Except.ok ret)
      else
        if uOffset < hi then
          some (Except.ok (r.unstable.CopyTo [] (max lo uOffset) hi maxSize))
        else some (Except.ok [])

/-- `ApplyTo` (src/raft_log.h:301-308): fatal (`none`) when `i = 0`, when
`commitIndex_ < i`, or when `i < lastApplied_`; else sets `lastApplied_ = i`. -/
def ApplyTo (r : RaftLog) (i : Nat) : Option RaftLog :=
  if i = 0 then none
  else if r.commitIndex < i ∨ i < r.lastApplied then none
  else some { r with lastApplied := i }

/-- `Restore` (src/raft_log.h:325-330): sets `commitIndex_` to the snapshot
index and resets the unstable buffer. -/
def Restore (r : RaftLog) (snap : Snapshot) : RaftLog :=
  { r with commitIndex := snap.index, unstable := r.unstable.Restore snap }

end RaftLog

/-- A concrete well-formed log state used to instantiate hypotheses: storage
holds entries 1-2 (term 1), the unstable buffer holds entries 3-4 (term 2),
`commitIndex = 2`, `lastApplied = 1`. -/
def sampleLog : RaftLog :=
  { storage := { compacted := 0, dummyTerm := 0, ents := [⟨1, 1, 1⟩, ⟨2, 1, 1⟩] }
    unstable := { offset := 3, entries := [⟨3, 2, 1⟩, ⟨4, 2, 1⟩], snapshot := none }
    commitIndex := 2
    lastApplied := 1 }

/-! ### Helper lemmas about the list-level auxiliaries -/

theorem sizeSum_append (a b : List Entry) : sizeSum (a ++ b) = sizeSum a + sizeSum b := by
  induction a with
  | nil => simp [sizeSum]
  | cons e t ih => simp [sizeSum, ih]; omega

theorem takeBudget_eq_take (l : List Entry) (b : Nat) :
    (takeBudget l b).1 = l.take (takeBudget l b).1.length := by
  induction l generalizing b with
  | nil => simp [takeBudget]
  | cons e t ih =>
    by_cases h : e.size ≤ b
    · simp only [takeBudget, if_pos h]
      simpa using ih (b - e.size)
    · simp [takeBudget, if_neg h]

theorem takeBudget_budget (l : List Entry) (b : Nat) :
    sizeSum (takeBudget l b).1 + (takeBudget l b).2 = b := by
  induction l generalizing b with
  | nil => simp [takeBudget, sizeSum]
  | cons e t ih =>
    by_cases h : e.size ≤ b
    · simp only [takeBudget, if_pos h, sizeSum]
      have := ih (b - e.size)
      omega
    · simp [takeBudget, if_neg h, sizeSum]

theorem takeBudget_length_le (l : List Entry) (b : Nat) :
    (takeBudget l b).1.length ≤ l.length := by
  induction l generalizing b with
  | nil => simp [takeBudget]
  | cons e t ih =>
    by_cases h : e.size ≤ b
    · simp only [takeBudget, if_pos h, List.length_cons]
      exact Nat.succ_le_succ (ih (b - e.size))
    · simp [takeBudget, if_neg h]

theorem contiguousFrom_cons {s : Nat} {e : Entry} {t : List Entry} :
    contiguousFrom s (e :: t) = true ↔ e.index = s ∧ contiguousFrom (s + 1) t = true := by
  simp [contiguousFrom]

theorem contiguousFrom_getElem? {l : List Entry} {s : Nat} (h : contiguousFrom s l = true)
    {k : Nat} (hk : k < l.length) : ∃ e, l[k]? = some e ∧ e.index = s + k := by
  induction l generalizing s k with
  | nil => simp at hk
  | cons a t ih =>
    rw [contiguousFrom_cons] at h
    cases k with
    | zero => exact ⟨a, by simp, by omega⟩
    | succ k =>
      obtain ⟨e, h1, h2⟩ := ih h.2 (by simpa using Nat.lt_of_succ_lt_succ hk)
      exact ⟨e, by simpa using h1, by omega⟩

theorem contiguousFrom_take {l : List Entry} {s : Nat} (h : contiguousFrom s l = true)
    (k : Nat) : contiguousFrom s (l.take k) = true := by
  induction l generalizing s k with
  | nil => simp [contiguousFrom]
  | cons a t ih =>
    rw [contiguousFrom_cons] at h
    cases k with
    | zero => simp [contiguousFrom]
    | succ k =>
      rw [List.take_succ_cons, contiguousFrom_cons]
      exact ⟨h.1, ih h.2 k⟩

theorem contiguousFrom_drop {l : List Entry} {s : Nat} (h : contiguousFrom s l = true)
    (k : Nat) : contiguousFrom (s + k) (l.drop k) = true := by
  induction l generalizing s k with
  | nil => simp [contiguousFrom]
  | cons a t ih =>
    rw [contiguousFrom_cons] at h
    cases k with
    | zero =>
      simp only [Nat.add_zero, List.drop_zero]
      rw [contiguousFrom_cons]
      exact ⟨h.1, h.2⟩
    | succ k =>
      rw [List.drop_succ_cons]
      have := ih h.2 k
      have harith : s + 1 + k = s + (k + 1) := by omega
      rwa [harith] at this

theorem contiguousFrom_append {a b : List Entry} {s : Nat}
    (ha : contiguousFrom s a = true) (hb : contiguousFrom (s + a.length) b = true) :
    contiguousFrom s (a ++ b) = true := by
  induction a generalizing s with
  | nil => simpa using hb
  | cons e t ih =>
    rw [contiguousFrom_cons] at ha
    rw [List.cons_append, contiguousFrom_cons]
    refine ⟨ha.1, ih ha.2 ?_⟩
    have harith : s + 1 + t.length = s + (e :: t).length := by simp; omega
    rwa [harith]

theorem lastEntry?_cons_cons (a b : Entry) (t : List Entry) :
    lastEntry? (a :: b :: t) = lastEntry? (b :: t) := rfl

theorem lastEntry?_concat (l : List Entry) (e : Entry) : lastEntry? (l ++ [e]) = some e := by
  induction l with
  | nil => rfl
  | cons a t ih =>
    cases t with
    | nil => rfl
    | cons b t2 => simpa [lastEntry?_cons_cons] using ih

theorem lastEntry?_contiguous {l : List Entry} {s : Nat} (h : contiguousFrom s l = true)
    (hne : l ≠ []) : ∃ e, lastEntry? l = some e ∧ e.index + 1 = s + l.length := by
  induction l generalizing s with
  | nil => exact absurd rfl hne
  | cons a t ih =>
    rw [contiguousFrom_cons] at h
    cases t with
    | nil => exact ⟨a, rfl, by simp; omega⟩
    | cons b t2 =>
      obtain ⟨e, h1, h2⟩ := ih h.2 (by simp)
      refine ⟨e, by simpa [lastEntry?_cons_cons] using h1, ?_⟩
      simp at h2 ⊢
      omega

theorem getElem?_concat_length (l : List Entry) (e : Entry) : (l ++ [e])[l.length]? = some e := by
  induction l with
  | nil => rfl
  | cons a t ih => simp

theorem getElem?_take_concat (l : List Entry) (e : Entry) (k : Nat) (hk : k ≤ l.length) :
    (l.take k ++ [e])[k]? = some e := by
  have h := getElem?_concat_length (l.take k) e
  rwa [List.length_take, Nat.min_eq_left hk] at h

theorem contiguousFrom_mem_le {l : List Entry} {s : Nat} (h : contiguousFrom s l = true)
    {x : Entry} (hx : x ∈ l) : s ≤ x.index := by
  induction l generalizing s with
  | nil => simp at hx
  | cons a t ih =>
    rw [contiguousFrom_cons] at h
    obtain ⟨ha, ht⟩ := h
    rcases List.mem_cons.mp hx with rfl | h1
    · omega
    · exact Nat.le_of_succ_le (ih ht h1)

theorem append_none_char (r : RaftLog) (l : List Entry) :
    r.Append l = none ↔ ∃ e, l.head? = some e ∧ e.index ≤ r.commitIndex := by
  cases l with
  | nil => simp [RaftLog.Append]
  | cons e t =>
    simp only [RaftLog.Append, List.head?_cons]
    by_cases h : e.index ≤ r.commitIndex
    · simp [h]
    · simp [h]

theorem mem_of_getElem?_eq {l : List Entry} {k : Nat} {e : Entry} (h : l[k]? = some e) :
    e ∈ l := by
  induction l generalizing k with
  | nil => simp at h
  | cons a t ih =>
    cases k with
    | zero =>
      simp only [List.getElem?_cons_zero, Option.some_inj] at h
      exact h ▸ List.mem_cons_self a t
    | succ k =>
      simp only [List.getElem?_cons_succ] at h
      exact List.mem_cons_of_mem a (ih h)

theorem firstIndex_of_nosnap (r : RaftLog) (h : r.unstable.snapshot = none) :
    r.FirstIndex = r.storage.compacted + 1 := by
  simp [RaftLog.FirstIndex, h, Storage.FirstIndex]

theorem lastIndex_of_empty (r : RaftLog) (h1 : r.unstable.entries = [])
    (h2 : r.unstable.snapshot = none) : r.LastIndex = r.storage.LastIndex := by
  simp [RaftLog.LastIndex, h1, h2, lastEntry?]

theorem lastIndex_of_contiguous (r : RaftLog)
    (hc : contiguousFrom r.unstable.offset r.unstable.entries = true)
    (hne : r.unstable.entries ≠ []) :
    r.LastIndex + 1 = r.unstable.offset + r.unstable.entries.length := by
  obtain ⟨e, h1, h2⟩ := lastEntry?_contiguous hc hne
  simp only [RaftLog.LastIndex, h1]
  omega

theorem storage_term_ok (s : Storage) (index : Nat) (h1 : s.compacted ≤ index)
    (h2 : index ≤ s.LastIndex) : ∃ t, s.Term index = Except.ok t := by
  by_cases hc : index = s.compacted
  · exact ⟨s.dummyTerm, by simp [Storage.Term, hc]⟩
  · have hlt : index - s.compacted - 1 < s.ents.length := by
      simp only [Storage.LastIndex] at h2
      omega
    refine ⟨s.ents[index - s.compacted - 1].term, ?_⟩
    simp only [Storage.Term, if_neg (by omega : ¬ index < s.compacted), if_neg hc,
      List.getElem?_eq_getElem hlt]

theorem copyTo_spec (u : Unstable) (dest : List Entry) (lo hi b : Nat)
    (hcont : contiguousFrom u.offset u.entries = true) (hlo : u.offset ≤ lo) :
    ∃ t, u.CopyTo dest lo hi b = dest ++ t ∧ contiguousFrom lo t = true ∧
      t.length ≤ hi - lo ∧ sizeSum t ≤ b := by
  refine ⟨(takeBudget ((u.entries.drop (lo - u.offset)).take (hi - lo)) b).1, rfl, ?_, ?_, ?_⟩
  · have h1 := contiguousFrom_drop hcont (lo - u.offset)
    rw [show u.offset + (lo - u.offset) = lo from by omega] at h1
    have h2 := contiguousFrom_take h1 (hi - lo)
    rw [takeBudget_eq_take]
    exact contiguousFrom_take h2 _
  · have h1 := takeBudget_length_le ((u.entries.drop (lo - u.offset)).take (hi - lo)) b
    have h2 : ((u.entries.drop (lo - u.offset)).take (hi - lo)).length ≤ hi - lo := by
      rw [List.length_take]
      omega
    omega
  · have := takeBudget_budget ((u.entries.drop (lo - u.offset)).take (hi - lo)) b
    omega

theorem storage_entries_spec (s : Storage) (lo hi b : Nat)
    (hcont : contiguousFrom (s.compacted + 1) s.ents = true) (hlo : s.compacted + 1 ≤ lo) :
    ∃ ret rem, s.Entries lo hi b = Except.ok (ret, rem) ∧
      contiguousFrom lo ret = true ∧ ret.length ≤ hi - lo ∧ sizeSum ret + rem = b := by
  refine ⟨(takeBudget ((s.ents.drop (lo - s.compacted - 1)).take (hi - lo)) b).1,
    (takeBudget ((s.ents.drop (lo - s.compacted - 1)).take (hi - lo)) b).2, ?_, ?_, ?_, ?_⟩
  · simp only [Storage.Entries, if_neg (by omega : ¬ lo ≤ s.compacted)]
  · have h1 := contiguousFrom_drop hcont (lo - s.compacted - 1)
    rw [show s.compacted + 1 + (lo - s.compacted - 1) = lo from by omega] at h1
    have h2 := contiguousFrom_take h1 (hi - lo)
    rw [takeBudget_eq_take]
    exact contiguousFrom_take h2 _
  · have h1 := takeBudget_length_le ((s.ents.drop (lo - s.compacted - 1)).take (hi - lo)) b
    have h2 : ((s.ents.drop (lo - s.compacted - 1)).take (hi - lo)).length ≤ hi - lo := by
      rw [List.length_take]
      omega
    omega
  · exact takeBudget_budget ((s.ents.drop (lo - s.compacted - 1)).take (hi - lo)) b

/-! ### The claims -/

/-- C10: `Append` applied to an empty entry range returns immediately with no
state change; neither the committed-history check nor the unstable buffer's
truncate-and-append runs. -/
theorem Append_empty_noop (r : RaftLog) : r.Append [] = some r := rfl

/-- C1 (amended): `Append` on a non-empty range is fatal exactly when the
FIRST entry's index is at or below `commitIndex_` (src/raft_log.h:142 checks
only `begin->index()`); otherwise it delegates the whole range to the unstable
buffer's truncate-and-append.  Under the callers' contiguity contract the
first index is minimal, so the first-entry check coincides with the spec's
any-entry check. -/
theorem Append_safety (r : RaftLog) (e : Entry) (rest : List Entry) :
    (r.Append (e :: rest) = none ↔ e.index ≤ r.commitIndex) ∧
    (r.commitIndex < e.index →
      r.Append (e :: rest) =
        some { r with unstable := r.unstable.TruncateAndAppend (e :: rest) }) ∧
    (contiguousFrom e.index (e :: rest) = true →
      ((∃ x ∈ e :: rest, x.index ≤ r.commitIndex) ↔ e.index ≤ r.commitIndex)) := by
  refine ⟨?_, ?_, ?_⟩
  · rw [append_none_char]
    simp
  · intro h
    simp only [RaftLog.Append, List.head?_cons]
    rw [if_neg (by omega)]
  · intro hc
    constructor
    · rintro ⟨x, hx, hxle⟩
      exact Nat.le_trans (contiguousFrom_mem_le hc hx) hxle
    · intro h
      exact ⟨e, List.mem_cons_self e rest, h⟩

/-- C1 counterexample: with `commitIndex = 2`, appending the (non-contiguous)
range `[{index 5}, {index 1}]` is NOT fatal even though the second entry's
index 1 is at or below the commit index — the code only checks the first
entry. -/
theorem Append_safety_counterexample :
    (∃ x ∈ [Entry.mk 5 1 0, Entry.mk 1 1 0], x.index ≤ sampleLog.commitIndex) ∧
    sampleLog.Append [Entry.mk 5 1 0, Entry.mk 1 1 0] ≠ none := by
  constructor
  · exact ⟨Entry.mk 1 1 0, by simp, by decide⟩
  · decide

/-- C1 witness: the amended theorem applied at a concrete non-fatal input. -/
theorem Append_safety_witness :
    sampleLog.Append [Entry.mk 5 2 1] =
      some { sampleLog with unstable := sampleLog.unstable.TruncateAndAppend [Entry.mk 5 2 1] } :=
  (Append_safety sampleLog (Entry.mk 5 2 1) []).2.1 (by decide)

/-- C3: `CommitTo(x)` is a no-op when `x ≤ commitIndex_`, fatal when
`commitIndex_ < x` and `LastIndex() < x`, and otherwise sets
`commitIndex_ = x`; whenever it returns, the new commit index is
`max(old, x)` (for `x ≤ LastIndex()`) and never decreases. -/
theorem CommitTo_monotonic (r : RaftLog) (x : Nat) :
    (x ≤ r.commitIndex → r.CommitTo x = some r) ∧
    (r.commitIndex < x → r.LastIndex < x → r.CommitTo x = none) ∧
    (r.commitIndex < x → x ≤ r.LastIndex →
      r.CommitTo x = some { r with commitIndex := x }) ∧
    (x ≤ r.LastIndex → ∀ r2, r.CommitTo x = some r2 →
      r2.commitIndex = max r.commitIndex x) ∧
    (∀ r2, r.CommitTo x = some r2 → r.commitIndex ≤ r2.commitIndex) := by
  refine ⟨?_, ?_, ?_, ?_, ?_⟩
  · intro h
    simp [RaftLog.CommitTo, Nat.not_lt.mpr h]
  · intro h1 h2
    simp [RaftLog.CommitTo, h1, h2]
  · intro h1 h2
    simp [RaftLog.CommitTo, h1, Nat.not_lt.mpr h2]
  · intro hx r2
    by_cases h1 : r.commitIndex < x
    · simp only [RaftLog.CommitTo, if_pos h1, if_neg (Nat.not_lt.mpr hx)]
      intro h
      obtain rfl := Option.some_injective _ h
      simp
      omega
    · simp only [RaftLog.CommitTo, if_neg h1]
      intro h
      obtain rfl := Option.some_injective _ h
      omega
  · intro r2
    by_cases h1 : r.commitIndex < x
    · by_cases h2 : r.LastIndex < x
      · simp [RaftLog.CommitTo, h1, h2]
      · simp only [RaftLog.CommitTo, if_pos h1, if_neg h2]
        intro h
        obtain rfl := Option.some_injective _ h
        simp
        omega
    · simp only [RaftLog.CommitTo, if_neg h1]
      intro h
      obtain rfl := Option.some_injective _ h
      omega

/-- C3 witness: committing to 4 from commit index 2 with last index 4. -/
theorem CommitTo_monotonic_witness :
    sampleLog.CommitTo 4 = some { sampleLog with commitIndex := 4 } :=
  (CommitTo_monotonic sampleLog 4).2.2.1 (by decide) (by decide)

/-- C7: `ApplyTo(i)` is fatal when `i = 0`, when `i > commitIndex_`, or when
`i < lastApplied_`; otherwise it sets `lastApplied_ = i` and changes nothing
else. -/
theorem ApplyTo_bounds (r : RaftLog) (i : Nat) :
    (i = 0 ∨ r.commitIndex < i ∨ i < r.lastApplied → r.ApplyTo i = none) ∧
    (i ≠ 0 → i ≤ r.commitIndex → r.lastApplied ≤ i →
      r.ApplyTo i = some { r with lastApplied := i }) := by
  constructor
  · rintro (h | h)
    · simp [RaftLog.ApplyTo, h]
    · by_cases h0 : i = 0
      · simp [RaftLog.ApplyTo, h0]
      · simp [RaftLog.ApplyTo, h0, h]
  · intro h0 h1 h2
    simp [RaftLog.ApplyTo, h0, Nat.not_lt.mpr h1, Nat.not_lt.mpr h2]

/-- C7 witness: applying index 2 with `lastApplied = 1 ≤ 2 ≤ commitIndex = 2`. -/
theorem ApplyTo_bounds_witness :
    sampleLog.ApplyTo 2 = some { sampleLog with lastApplied := 2 } :=
  (ApplyTo_bounds sampleLog 2).2 (by decide) (by decide) (by decide)

/-- C4: `lastApplied_ ≤ commitIndex_` holds after construction and is
preserved by every non-fatal `CommitTo`, `ApplyTo`, `Append` and — under its
stated caller precondition `snapshot.index > commitIndex_` — `Restore`. -/
theorem applied_le_commit_invariant :
    (∀ st : Storage, (RaftLog.init st).lastApplied ≤ (RaftLog.init st).commitIndex) ∧
    (∀ (r : RaftLog) (x : Nat) (r2 : RaftLog), r.lastApplied ≤ r.commitIndex →
      r.CommitTo x = some r2 → r2.lastApplied ≤ r2.commitIndex) ∧
    (∀ (r : RaftLog) (i : Nat) (r2 : RaftLog), r.lastApplied ≤ r.commitIndex →
      r.ApplyTo i = some r2 → r2.lastApplied ≤ r2.commitIndex) ∧
    (∀ (r : RaftLog) (snap : Snapshot), r.lastApplied ≤ r.commitIndex →
      r.commitIndex < snap.index →
      (r.Restore snap).lastApplied ≤ (r.Restore snap).commitIndex) ∧
    (∀ (r : RaftLog) (ents : List Entry) (r2 : RaftLog), r.lastApplied ≤ r.commitIndex →
      r.Append ents = some r2 → r2.lastApplied ≤ r2.commitIndex) := by
  refine ⟨?_, ?_, ?_, ?_, ?_⟩
  · intro st
    exact Nat.le_refl _
  · intro r x r2 hinv h
    by_cases h1 : r.commitIndex < x
    · by_cases h2 : r.LastIndex < x
      · simp [RaftLog.CommitTo, h1, h2] at h
      · simp only [RaftLog.CommitTo, if_pos h1, if_neg h2] at h
        obtain rfl := Option.some_injective _ h
        simp
        omega
    · simp only [RaftLog.CommitTo, if_neg h1] at h
      obtain rfl := Option.some_injective _ h
      exact hinv
  · intro r i r2 hinv h
    by_cases h0 : i = 0
    · simp [RaftLog.ApplyTo, h0] at h
    · by_cases h1 : r.commitIndex < i ∨ i < r.lastApplied
      · simp [RaftLog.ApplyTo, h0, h1] at h
      · simp only [RaftLog.ApplyTo, if_neg h0, if_neg h1] at h
        obtain rfl := Option.some_injective _ h
        simp
        omega
  · intro r snap hinv hpre
    simp only [RaftLog.Restore]
    omega
  · intro r ents r2 hinv h
    cases ents with
    | nil =>
      obtain rfl := Option.some_injective _ h
      exact hinv
    | cons e t =>
      simp only [RaftLog.Append, List.head?_cons] at h
      by_cases h1 : e.index ≤ r.commitIndex
      · simp [h1] at h
      · rw [if_neg h1] at h
        obtain rfl := Option.some_injective _ h
        exact hinv

/-- C4 witness: the `ApplyTo` conjunct at a concrete state. -/
theorem applied_le_commit_invariant_witness :
    RaftLog.lastApplied { sampleLog with lastApplied := 2 } ≤
      RaftLog.commitIndex { sampleLog with lastApplied := 2 } :=
  applied_le_commit_invariant.2.2.1 sampleLog 2 { sampleLog with lastApplied := 2 }
    (by decide) (by decide)

/-- C6: on a run of entries with contiguous strictly increasing indices,
`FindConflict` returns the end sentinel (here: the list length) iff every
supplied entry satisfies `HasEntry(index, term)`; otherwise it returns the
position of the first entry failing `HasEntry`, every earlier entry
matching. -/
theorem FindConflict_first_mismatch (r : RaftLog) (ents : List Entry)
    (_hinc : ∃ s, contiguousFrom s ents = true) :
    r.FindConflict ents ≤ ents.length ∧
    (r.FindConflict ents = ents.length ↔
      ∀ e ∈ ents, r.HasEntry e.index e.term = true) ∧
    (r.FindConflict ents < ents.length →
      (∃ e, ents[r.FindConflict ents]? = some e ∧ r.HasEntry e.index e.term = false) ∧
      ∀ j < r.FindConflict ents, ∃ e, ents[j]? = some e ∧ r.HasEntry e.index e.term = true) := by
  clear _hinc
  induction ents with
  | nil => simp [RaftLog.FindConflict]
  | cons e t ih =>
    by_cases h : r.HasEntry e.index e.term
    · obtain ⟨ih1, ih2, ih3⟩ := ih
      refine ⟨?_, ?_, ?_⟩
      · simp only [RaftLog.FindConflict, if_pos h, List.length_cons]
        omega
      · simp only [RaftLog.FindConflict, if_pos h, List.length_cons]
        constructor
        · intro hlen
          intro x hx
          rcases List.mem_cons.mp hx with rfl | hx2
          · exact h
          · exact ih2.mp (by omega) x hx2
        · intro hall
          have := ih2.mpr (fun x hx => hall x (List.mem_cons_of_mem e hx))
          omega
      · simp only [RaftLog.FindConflict, if_pos h, List.length_cons]
        intro hlt
        obtain ⟨⟨x, hx1, hx2⟩, hbefore⟩ := ih3 (by omega)
        refine ⟨⟨x, by simpa using hx1, hx2⟩, ?_⟩
        intro j hj
        cases j with
        | zero => exact ⟨e, by simp, by simpa using h⟩
        | succ j =>
          obtain ⟨y, hy1, hy2⟩ := hbefore j (by omega)
          exact ⟨y, by simpa using hy1, hy2⟩
    · refine ⟨?_, ?_, ?_⟩
      · simp [RaftLog.FindConflict, if_neg h]
      · simp only [RaftLog.FindConflict, if_neg h, List.length_cons]
        constructor
        · omega
        · intro hall
          exact absurd (hall e (List.mem_cons_self e t)) (by simpa using h)
      · intro hlt
        simp only [RaftLog.FindConflict, if_neg h] at hlt ⊢
        refine ⟨⟨e, by simp, by simpa using h⟩, ?_⟩
        intro j hj
        omega

/-- C6 witness: in the sample log, `[{3, term 2}, {4, term 3}]` conflicts at
position 1 (the local entry 4 has term 2). -/
theorem FindConflict_first_mismatch_witness :
    (∃ e, [Entry.mk 3 2 0, Entry.mk 4 3 0][sampleLog.FindConflict
        [Entry.mk 3 2 0, Entry.mk 4 3 0]]? = some e ∧
      sampleLog.HasEntry e.index e.term = false) ∧
    ∀ j < sampleLog.FindConflict [Entry.mk 3 2 0, Entry.mk 4 3 0],
      ∃ e, [Entry.mk 3 2 0, Entry.mk 4 3 0][j]? = some e ∧
        sampleLog.HasEntry e.index e.term = true :=
  (FindConflict_first_mismatch sampleLog [Entry.mk 3 2 0, Entry.mk 4 3 0]
    ⟨3, by decide⟩).2.2 (by decide)

/-- C2 (amended): whenever `MaybeAppend` returns, it returns success iff
`HasEntry(prevLogIndex, prevLogTerm)`; on success `newLastIndex =
prevLogIndex + len(entries)`, on failure `newLastIndex = 0` with the state
untouched.  The call is instead fatal exactly when the handshake succeeds
but the first conflicting entry lies at or below the commit index (the
inner `Append` aborts): both directions of that equivalence are the first
conjunct. -/
theorem MaybeAppend_contract (r : RaftLog) (p pt : Nat) (ents : List Entry) :
    (r.MaybeAppend p pt ents = none ↔
      r.HasEntry p pt = true ∧
      ∃ e, (ents.drop (r.FindConflict ents)).head? = some e ∧
        e.index ≤ r.commitIndex) ∧
    (∀ b n r2, r.MaybeAppend p pt ents = some (b, n, r2) →
      ((b = true) ↔ r.HasEntry p pt = true) ∧
      (b = true → n = p + ents.length) ∧
      (b = false → n = 0 ∧ r2 = r)) := by
  constructor
  · constructor
    · intro hnone
      by_cases hhe : r.HasEntry p pt
      · by_cases hne : 0 < ents.length
        · by_cases hcf : r.FindConflict ents ≠ ents.length
          · simp only [RaftLog.MaybeAppend, if_pos hhe, if_pos hne, if_pos hcf] at hnone
            refine ⟨hhe, ?_⟩
            rcases hap : r.Append (ents.drop (r.FindConflict ents)) with _ | r2
            · exact (append_none_char r _).mp hap
            · rw [hap] at hnone
              simp at hnone
          · simp [RaftLog.MaybeAppend, hhe, hne, hcf] at hnone
        · simp [RaftLog.MaybeAppend, hhe, hne] at hnone
      · simp [RaftLog.MaybeAppend, hhe] at hnone
    · rintro ⟨hhe, e, he1, he2⟩
      have hne : 0 < ents.length := by
        rcases ents with _ | ⟨a, t⟩
        · simp at he1
        · simp
      have hcf : r.FindConflict ents ≠ ents.length := by
        intro hh
        rw [hh, List.drop_length] at he1
        simp at he1
      have hap : r.Append (ents.drop (r.FindConflict ents)) = none :=
        (append_none_char r _).mpr ⟨e, he1, he2⟩
      simp only [RaftLog.MaybeAppend, if_pos hhe, if_pos hne, if_pos hcf, hap]
  · intro b n r2 hsome
    by_cases hhe : r.HasEntry p pt
    · by_cases hne : 0 < ents.length
      · by_cases hcf : r.FindConflict ents ≠ ents.length
        · simp only [RaftLog.MaybeAppend, if_pos hhe, if_pos hne, if_pos hcf] at hsome
          rcases hap : r.Append (ents.drop (r.FindConflict ents)) with _ | r3
          · rw [hap] at hsome
            simp at hsome
          · rw [hap] at hsome
            have h3 := Option.some_injective _ hsome
            injection h3 with hb hrest
            injection hrest with hn hr
            subst hb; subst hn; subst hr
            exact ⟨by simp [hhe], fun h2 => rfl, by intro h2; simp at h2⟩
        · simp only [RaftLog.MaybeAppend, if_pos hhe, if_pos hne, if_neg hcf] at hsome
          have h3 := Option.some_injective _ hsome
          injection h3 with hb hrest
          injection hrest with hn hr
          subst hb; subst hn; subst hr
          exact ⟨by simp [hhe], fun h2 => rfl, by intro h2; simp at h2⟩
      · simp only [RaftLog.MaybeAppend, if_pos hhe, if_neg hne] at hsome
        have h3 := Option.some_injective _ hsome
        injection h3 with hb hrest
        injection hrest with hn hr
        subst hb; subst hn; subst hr
        exact ⟨by simp [hhe], fun h2 => rfl, by intro h2; simp at h2⟩
    · simp only [RaftLog.MaybeAppend, if_neg hhe] at hsome
      have h3 := Option.some_injective _ hsome
      injection h3 with hb hrest
      injection hrest with hn hr
      subst hb; subst hn; subst hr
      refine ⟨by simp [hhe], by intro h2; simp at h2, fun h2 => ⟨rfl, rfl⟩⟩

/-- C2 counterexample: the handshake succeeds (`HasEntry(1, 1)` is true) and
yet the call is fatal: the incoming entry `{2, term 2}` conflicts with the
committed local entry `{2, term 1}` at the commit index, so the inner
`Append` aborts — `MaybeAppend` never returns. -/
theorem MaybeAppend_contract_counterexample :
    sampleLog.HasEntry 1 1 = true ∧
    sampleLog.MaybeAppend 1 1 [Entry.mk 2 2 0] = none := by decide

/-- C2 witness: a successful handshake appending a matching entry. -/
theorem MaybeAppend_contract_witness :
    ((true = true) ↔ sampleLog.HasEntry 2 1 = true) ∧
    (true = true → 3 = 2 + [Entry.mk 3 2 0].length) ∧
    (true = false → 3 = 0 ∧ sampleLog = sampleLog) :=
  (MaybeAppend_contract sampleLog 2 1 [Entry.mk 3 2 0]).2 true 3 sampleLog (by decide)

/-- C5 (amended): in a well-formed state with no pending unstable snapshot,
`Term(index)` succeeds for every index in `[FirstIndex()-1, LastIndex()]`;
in every state, `Term(index)` fails with `OutOfBound` for every index outside
that domain. -/
theorem Term_domain (r : RaftLog) (index : Nat) :
    (r.unstable.snapshot = none →
      contiguousFrom r.unstable.offset r.unstable.entries = true →
      (∀ e ∈ r.unstable.entries, e.term ≠ 0) →
      r.unstable.offset ≤ r.storage.LastIndex + 1 →
      r.FirstIndex - 1 ≤ index → index ≤ r.LastIndex →
      ∃ t, r.Term index = Except.ok t) ∧
    (r.LastIndex < index ∨ index < r.FirstIndex - 1 →
      r.Term index = Except.error Err.OutOfBound) := by
  constructor
  · intro hsnap hcontU hterms hsuffix hlow hhigh
    have hdom : ¬ (index > r.LastIndex ∨ index < r.FirstIndex - 1) := by omega
    have hfi : r.FirstIndex = r.storage.compacted + 1 := firstIndex_of_nosnap r hsnap
    by_cases hcase : r.unstable.offset ≤ index ∧
        index < r.unstable.offset + r.unstable.entries.length
    · have hk : index - r.unstable.offset < r.unstable.entries.length := by omega
      obtain ⟨e, he1, he2⟩ := contiguousFrom_getElem? hcontU hk
      have hmem : e ∈ r.unstable.entries := mem_of_getElem?_eq he1
      have hmt : r.unstable.MaybeTerm index = e.term := by
        simp [Unstable.MaybeTerm, if_pos hcase, he1]
      refine ⟨e.term, ?_⟩
      simp only [RaftLog.Term, if_neg hdom]
      simp [hmt, hterms e hmem]
    · have hmt : r.unstable.MaybeTerm index = 0 := by
        simp [Unstable.MaybeTerm, if_neg hcase]
      have hsto : index ≤ r.storage.LastIndex := by
        rcases hents : r.unstable.entries with _ | ⟨e, t⟩
        · have := lastIndex_of_empty r hents hsnap
          omega
        · have hne : r.unstable.entries ≠ [] := by rw [hents]; simp
          have hlast := lastIndex_of_contiguous r hcontU hne
          rw [hents] at hcase hlast
          have hidx : index < r.unstable.offset := by
            by_cases h2 : r.unstable.offset ≤ index
            · exact absurd ⟨h2, by omega⟩ hcase
            · omega
          omega
      obtain ⟨t, ht⟩ := storage_term_ok r.storage index (by omega) hsto
      refine ⟨t, ?_⟩
      simp only [RaftLog.Term, if_neg hdom]
      simp [hmt, ht]
  · intro h
    simp only [RaftLog.Term, if_pos (by omega : index > r.LastIndex ∨ index < r.FirstIndex - 1)]

/-- C5 counterexample: after `Restore` of snapshot `{index 5, term 3}` on the
sample log, the dummy index `FirstIndex()-1 = 5` lies in the valid domain
`[FirstIndex()-1, LastIndex()] = [5, 5]`, yet `Term(5)` fails: the unstable
buffer answers only `[offset, offset+len)` and storage does not reach index
5. -/
theorem Term_domain_counterexample :
    (sampleLog.Restore ⟨5, 3⟩).FirstIndex - 1 ≤ 5 ∧
    5 ≤ (sampleLog.Restore ⟨5, 3⟩).LastIndex ∧
    (sampleLog.Restore ⟨5, 3⟩).Term 5 = Except.error Err.OutOfBound :=
  ⟨by decide, by decide, rfl⟩

/-- C5 witness: the amended theorem applied at the sample log and index 0
(the dummy index), where `Term` succeeds. -/
theorem Term_domain_witness :
    ∃ t, sampleLog.Term 0 = Except.ok t :=
  (Term_domain sampleLog 0).1 (by decide) (by decide) (by decide) (by decide)
    (by decide) (by decide)

/-- C9: in a state whose dummy index does not exceed the commit index, for an
entry with a valid (non-zero) term whose index keeps the log contiguous,
appending `[e]` is non-fatal when `e.index > commitIndex_`, and `Term(e.index)`
afterwards returns `e.term`. -/
theorem Append_Term_roundtrip (r : RaftLog) (e : Entry)
    (hdummy : r.FirstIndex - 1 ≤ r.commitIndex)
    (hcommit : r.commitIndex < e.index)
    (hterm : e.term ≠ 0)
    (hnogap : e.index ≤ r.unstable.offset + r.unstable.entries.length) :
    ∃ r2, r.Append [e] = some r2 ∧ r2.Term e.index = Except.ok e.term := by
  refine ⟨{ r with unstable := r.unstable.TruncateAndAppend [e] }, ?_, ?_⟩
  · simp only [RaftLog.Append, List.head?_cons]
    rw [if_neg (by omega)]
  · have hsnap2 : (r.unstable.TruncateAndAppend [e]).snapshot = r.unstable.snapshot := by
      simp only [Unstable.TruncateAndAppend, List.head?_cons]
      split_ifs <;> rfl
    have hlast : lastEntry? (r.unstable.TruncateAndAppend [e]).entries = some e := by
      simp only [Unstable.TruncateAndAppend, List.head?_cons]
      split_ifs
      · exact lastEntry?_concat _ e
      · rfl
      · exact lastEntry?_concat _ e
    have hmt : (r.unstable.TruncateAndAppend [e]).MaybeTerm e.index = e.term := by
      by_cases h1 : e.index = r.unstable.offset + r.unstable.entries.length
      · simp only [Unstable.TruncateAndAppend, List.head?_cons, if_pos h1]
        simp only [Unstable.MaybeTerm, List.length_append, List.length_cons,
          List.length_nil]
        rw [if_pos (by omega :
          r.unstable.offset ≤ e.index ∧
            e.index < r.unstable.offset + (r.unstable.entries.length + 0 + 1))]
        have hk : e.index - r.unstable.offset = r.unstable.entries.length := by omega
        rw [hk, getElem?_concat_length]
        rfl
      · by_cases h2 : e.index ≤ r.unstable.offset
        · simp only [Unstable.TruncateAndAppend, List.head?_cons, if_neg h1, if_pos h2]
          simp only [Unstable.MaybeTerm, List.length_cons, List.length_nil]
          rw [if_pos (by omega : e.index ≤ e.index ∧ e.index < e.index + (0 + 1))]
          rw [Nat.sub_self]
          rfl
        · simp only [Unstable.TruncateAndAppend, List.head?_cons, if_neg h1, if_neg h2]
          have hlen : (r.unstable.entries.take (e.index - r.unstable.offset)).length =
              e.index - r.unstable.offset := by
            rw [List.length_take]
            omega
          simp only [Unstable.MaybeTerm, List.length_append, List.length_cons,
            List.length_nil, hlen]
          rw [if_pos (by omega :
            r.unstable.offset ≤ e.index ∧
              e.index < r.unstable.offset + (e.index - r.unstable.offset + (0 + 1)))]
          rw [getElem?_take_concat r.unstable.entries e (e.index - r.unstable.offset)
            (by omega)]
          rfl
    have hli : RaftLog.LastIndex { r with unstable := r.unstable.TruncateAndAppend [e] } =
        e.index := by
      simp only [RaftLog.LastIndex, hlast]
    have hfi : RaftLog.FirstIndex { r with unstable := r.unstable.TruncateAndAppend [e] } =
        r.FirstIndex := by
      simp only [RaftLog.FirstIndex, hsnap2]
    simp only [RaftLog.Term, hli, hfi]
    rw [if_neg (by omega)]
    simp only [hmt]
    rw [if_pos hterm]

/-- C9 witness: appending entry `{5, term 2}` to the sample log (commit index
2, last index 4) and reading its term back. -/
theorem Append_Term_roundtrip_witness :
    ∃ r2, sampleLog.Append [Entry.mk 5 2 1] = some r2 ∧ r2.Term 5 = Except.ok 2 :=
  Append_Term_roundtrip sampleLog (Entry.mk 5 2 1) (by decide) (by decide) (by decide)
    (by decide)

/-- C8 (amended): in a well-formed snapshot-free state, `Entries(lo, hi,
maxSize)` applies its checks in the code's order — fatal when `lo > hi`; else
`LogCompacted` when `lo < FirstIndex()` (even when `hi` is also out of
range); else fatal when `hi > LastIndex()+1`; otherwise it returns entries
whose indices form a contiguous prefix of `[lo, hi)` and whose cumulative
payload size never exceeds `maxSize`. -/
theorem Entries_bounds_budget (r : RaftLog) (lo hi maxSize : Nat)
    (hsnap : r.unstable.snapshot = none)
    (hcontS : contiguousFrom (r.storage.compacted + 1) r.storage.ents = true)
    (hcontU : contiguousFrom r.unstable.offset r.unstable.entries = true)
    (hco : r.storage.compacted + 1 ≤ r.unstable.offset) :
    (hi < lo → r.Entries lo hi maxSize = none) ∧
    (lo ≤ hi → lo < r.FirstIndex →
      r.Entries lo hi maxSize = some (Except.error Err.LogCompacted)) ∧
    (lo ≤ hi → r.FirstIndex ≤ lo → r.LastIndex + 1 < hi →
      r.Entries lo hi maxSize = none) ∧
    (lo ≤ hi → r.FirstIndex ≤ lo → hi ≤ r.LastIndex + 1 →
      ∃ res, r.Entries lo hi maxSize = some (Except.ok res) ∧
        contiguousFrom lo res = true ∧ res.length ≤ hi - lo ∧ sizeSum res ≤ maxSize) := by
  have hfi : r.FirstIndex = r.storage.compacted + 1 := firstIndex_of_nosnap r hsnap
  have hfil : r.FirstIndex ≤ r.LastIndex + 1 := by
    rw [hfi]
    rcases hents : r.unstable.entries with _ | ⟨a, t⟩
    · have h := lastIndex_of_empty r hents hsnap
      rw [h]
      simp only [Storage.LastIndex]
      omega
    · have hne : r.unstable.entries ≠ [] := by rw [hents]; simp
      have h := lastIndex_of_contiguous r hcontU hne
      omega
  refine ⟨?_, ?_, ?_, ?_⟩
  · intro h1
    have hmc : r.MustCheckOutOfBounds lo hi = none := by
      simp only [RaftLog.MustCheckOutOfBounds]
      rw [if_pos (by omega : lo > hi)]
    simp only [RaftLog.Entries, hmc]
  · intro h1 h2
    have hmc : r.MustCheckOutOfBounds lo hi = some (Except.error Err.LogCompacted) := by
      simp only [RaftLog.MustCheckOutOfBounds]
      rw [if_neg (by omega : ¬ lo > hi), if_pos h2]
    simp only [RaftLog.Entries, hmc]
  · intro h1 h2 h3
    have hmc : r.MustCheckOutOfBounds lo hi = none := by
      simp only [RaftLog.MustCheckOutOfBounds]
      rw [if_neg (by omega : ¬ lo > hi), if_neg (by omega : ¬ lo < r.FirstIndex),
        if_pos (by omega :
          lo < r.FirstIndex ∨ hi > r.FirstIndex + (r.LastIndex + 1 - r.FirstIndex))]
    simp only [RaftLog.Entries, hmc]
  · intro h1 h2 h3
    have hmc : r.MustCheckOutOfBounds lo hi = some (Except.ok ()) := by
      simp only [RaftLog.MustCheckOutOfBounds]
      rw [if_neg (by omega : ¬ lo > hi), if_neg (by omega : ¬ lo < r.FirstIndex),
        if_neg (by omega :
          ¬ (lo < r.FirstIndex ∨ hi > r.FirstIndex + (r.LastIndex + 1 - r.FirstIndex)))]
    by_cases hlohi : lo = hi
    · refine ⟨[], ?_, by simp [contiguousFrom], by simp, by simp [sizeSum]⟩
      simp only [RaftLog.Entries, hmc, if_pos hlohi]
    · by_cases hA : lo < r.unstable.offset
      · obtain ⟨ret, rem, hse, hc1, hl1, hb1⟩ :=
          storage_entries_spec r.storage lo (min hi r.unstable.offset) maxSize hcontS
            (by omega)
        by_cases hshort : ret.length < min hi r.unstable.offset - lo
        · refine ⟨ret, ?_, hc1, ?_, by omega⟩
          · simp only [RaftLog.Entries, hmc, if_neg hlohi, if_pos hA, hse, if_pos hshort]
          · have := Nat.min_le_left hi r.unstable.offset
            omega
        · by_cases hB : r.unstable.offset < hi
          · have hminB : min hi r.unstable.offset = r.unstable.offset :=
              Nat.min_eq_right (Nat.le_of_lt hB)
            have hfull : ret.length = r.unstable.offset - lo := by
              rw [hminB] at hl1 hshort
              omega
            obtain ⟨t, hct, hc2, hl2, hb2⟩ :=
              copyTo_spec r.unstable ret (max lo r.unstable.offset) hi rem hcontU
                (Nat.le_max_right _ _)
            have hmax : max lo r.unstable.offset = r.unstable.offset :=
              Nat.max_eq_right (Nat.le_of_lt hA)
            rw [hmax] at hc2 hl2
            refine ⟨ret ++ t, ?_, ?_, ?_, ?_⟩
            · simp only [RaftLog.Entries, hmc, if_neg hlohi, if_pos hA, hse,
                if_neg hshort, if_pos hB, hct]
            · refine contiguousFrom_append hc1 ?_
              rw [show lo + ret.length = r.unstable.offset from by omega]
              exact hc2
            · rw [List.length_append]
              omega
            · rw [sizeSum_append]
              omega
          · have hminB : min hi r.unstable.offset = hi := Nat.min_eq_left (by omega)
            refine ⟨ret, ?_, hc1, ?_, by omega⟩
            · simp only [RaftLog.Entries, hmc, if_neg hlohi, if_pos hA, hse,
                if_neg hshort, if_neg hB]
            · rw [hminB] at hl1
              exact hl1
      · have hB : r.unstable.offset < hi := by omega
        obtain ⟨t, hct, hc2, hl2, hb2⟩ :=
          copyTo_spec r.unstable [] (max lo r.unstable.offset) hi maxSize hcontU
            (Nat.le_max_right _ _)
        have hmax : max lo r.unstable.offset = lo := Nat.max_eq_left (by omega)
        rw [hmax] at hc2 hl2
        refine ⟨t, ?_, hc2, hl2, by omega⟩
        simp only [RaftLog.Entries, hmc, if_neg hlohi, if_neg hA, if_pos hB, hct]
        simp

/-- C8 counterexample: with `lo = 0 < FirstIndex() = 1` and
`hi = 10 > LastIndex() + 1 = 5`, the call is NOT fatal — the compaction check
precedes the upper-bound check, so it returns `LogCompacted`. -/
theorem Entries_bounds_budget_counterexample :
    (0 : Nat) ≤ 10 ∧ sampleLog.LastIndex + 1 < 10 ∧
    sampleLog.Entries 0 10 100 = some (Except.error Err.LogCompacted) :=
  ⟨by decide, by decide, rfl⟩

/-- C8 witness: a full in-bounds read of `[1, 5)` from the sample log. -/
theorem Entries_bounds_budget_witness :
    ∃ res, sampleLog.Entries 1 5 100 = some (Except.ok res) ∧
      contiguousFrom 1 res = true ∧ res.length ≤ 5 - 1 ∧ sizeSum res ≤ 100 :=
  (Entries_bounds_budget sampleLog 1 5 100 (by decide) (by decide) (by decide)
    (by decide)).2.2.2 (by decide) (by decide) (by decide)

end Yaraft
